import Mathlib

/-!
Shallow embedding of `src/cli/prove_chunk_entropy.py` from the
zenithkernel repository.

The Python code converts a byte chunk into a normalized square
"density" matrix (`chunk_to_density`) and drives a CLI `main` that
validates arguments, decodes base64, enforces a 10 MB cap, and then
runs the encoder, an entropy estimator and a proof engine.

Numeric model: the Python code computes with IEEE doubles; we embed the
arithmetic over `ℚ`.  All quantities the claims talk about (byte values,
traces before normalization, the constants `1e-10` and `1e-6`) are
exactly representable, and the divisions performed are by exactly
computed traces, so the rational model reproduces the value-level
branching of the code faithfully.  A chunk is a list of byte values
(`List ℕ`).
-/

namespace ZenithChunk

/-! ## Definitions embedded from the source -/

/-- Embedding of `int(np.ceil(np.sqrt(n)))` on a natural number `n`:
the least `s` with `n ≤ s ^ 2`. -/
def ceilSqrt (n : ℕ) : ℕ :=
  if Nat.sqrt n * Nat.sqrt n = n then Nat.sqrt n else Nat.sqrt n + 1

/-- Side length of the matrix built from `chunk`:
`size = int(np.ceil(np.sqrt(len(chunk_bytes))))`. -/
def densitySize (chunk : List ℕ) : ℕ := ceilSqrt chunk.length

/-- Matrix entry after the fill loop and before normalization.
The loop runs `for i in range(len(byte_array))`, computes
`row, col = divmod(i, size)` and, guarded by
`if row < size and col < size`, sets `matrix[row, col] = byte[i]`;
all other entries keep the `np.zeros` value.  Position `(i, j)`
receives byte index `i * size + j`, which determines `(i, j)` uniquely,
so each cell is written at most once and the loop is equivalent to this
closed form. -/
def rawEntry (chunk : List ℕ) (i j : ℕ) : ℚ :=
  let size := densitySize chunk
  if i < size ∧ j < size ∧ i * size + j < chunk.length then
    (chunk.getD (i * size + j) 0 : ℕ)
  else 0

/-- Natural-number view of `rawEntry`, recording that every entry of
the freshly filled matrix is a byte value (hence a non-negative
integer). -/
def natEntry (chunk : List ℕ) (i j : ℕ) : ℕ :=
  let size := densitySize chunk
  if i < size ∧ j < size ∧ i * size + j < chunk.length then
    chunk.getD (i * size + j) 0
  else 0

/-- Embedding of `np.trace(matrix)` on the freshly filled matrix
(`norm = np.trace(matrix)`, first assignment). -/
def rawTrace (chunk : List ℕ) : ℚ :=
  ∑ k in Finset.range (densitySize chunk), rawEntry chunk k k

/-- The stability constant `1e-6` used in `matrix += np.eye(size) * 1e-6`. -/
def eps : ℚ := 1 / 1000000

/-- The threshold `1e-10` in `if norm < 1e-10`. -/
def traceThreshold : ℚ := 1 / 10000000000

/-- Matrix entry after the `matrix += np.eye(size) * 1e-6` statement
(the value the perturbation branch works with). -/
def perturbedEntry (chunk : List ℕ) (i j : ℕ) : ℚ :=
  rawEntry chunk i j + if i = j ∧ i < densitySize chunk then eps else 0

/-- Trace recomputed after the perturbation (`norm = np.trace(matrix)`,
second assignment). -/
def perturbedTrace (chunk : List ℕ) : ℚ :=
  ∑ k in Finset.range (densitySize chunk), perturbedEntry chunk k k

/-- Entry of the matrix right before the final division, following the
branch `if norm < 1e-10`. -/
def preNormEntry (chunk : List ℕ) (i j : ℕ) : ℚ :=
  if rawTrace chunk < traceThreshold then perturbedEntry chunk i j
  else rawEntry chunk i j

/-- The divisor `norm` used in `return matrix / norm` (recomputed when
the perturbation branch ran). -/
def normTrace (chunk : List ℕ) : ℚ :=
  if rawTrace chunk < traceThreshold then perturbedTrace chunk
  else rawTrace chunk

/-- Embedding of `chunk_to_density`: entry `(i, j)` of the returned
matrix, i.e. `matrix / norm`. -/
def chunk_to_density (chunk : List ℕ) (i j : ℕ) : ℚ :=
  preNormEntry chunk i j / normTrace chunk

/-- Trace of the matrix returned by `chunk_to_density`. -/
def densityTrace (chunk : List ℕ) : ℚ :=
  ∑ k in Finset.range (densitySize chunk), chunk_to_density chunk k k

/-- Pipeline stages of `main` that run after input validation:
the call to `chunk_to_density`, the entropy estimation task, and the
proof generation via the external `qzkp` engine. -/
inductive Ev where
  | encode
  | entropy
  | prove
deriving DecidableEq

/-- The `10000000` byte cap in `if len(chunk_bytes) > 10000000`. -/
def sizeCap : ℕ := 10000000

/-- Embedding of `main`.  `argv` models `sys.argv` (script name plus
positional arguments).  `decoded` models the outcome of
`base64.b64decode(sys.argv[1])`: `none` when the library call raises
(exit 3), `some chunk` with the decoded bytes otherwise.  `internalOk`
models whether the downstream entropy/proof stage — the external `qzkp`
library, not part of this repository — completes without raising; on
failure the generic handler prints the message and exits 2.  `sys.exit`
raises `SystemExit`, which derives from `BaseException`, so the
`except Exception` handler does not intercept the exit-3 and exit-4
paths.  The result is the process exit code paired with the list of
pipeline stages that were started, in program order:
`chunk_to_density` runs unconditionally once validation passes (it
cannot raise for any bytes input), and the entropy/proof stages run
after it. -/
def mainRun (argv : List String) (decoded : Option (List ℕ)) (internalOk : Bool) :
    ℕ × List Ev :=
  if argv.length ≠ 3 then (1, [])
  else
    match decoded with
    | none => (3, [])
    | some chunk =>
      if sizeCap < chunk.length then (4, [])
      else if internalOk then (0, [Ev.encode, Ev.entropy, Ev.prove])
      else (2, [Ev.encode])

/-! ## Helper lemmas -/

lemma natSqrt_eq (n s : ℕ) (h1 : s * s ≤ n) (h2 : n < (s + 1) * (s + 1)) :
    Nat.sqrt n = s := (Nat.eq_sqrt.mpr ⟨h1, h2⟩).symm

lemma le_sq_ceilSqrt (n : ℕ) : n ≤ ceilSqrt n * ceilSqrt n := by
  unfold ceilSqrt
  split
  · omega
  · simpa [Nat.succ_eq_add_one] using (Nat.lt_succ_sqrt n).le

lemma ceilSqrt_le_of_le_sq (n s : ℕ) (h : n ≤ s * s) : ceilSqrt n ≤ s := by
  unfold ceilSqrt
  split
  · calc Nat.sqrt n ≤ Nat.sqrt (s * s) := Nat.sqrt_le_sqrt h
      _ = s := Nat.sqrt_eq s
  · next hne =>
      by_contra hc
      push_neg at hc
      have hs : s ≤ Nat.sqrt n := by omega
      have h1 : s * s ≤ Nat.sqrt n * Nat.sqrt n := Nat.mul_le_mul hs hs
      have h2 : Nat.sqrt n * Nat.sqrt n ≤ n := Nat.sqrt_le n
      have : n = s * s := le_antisymm h (le_trans (le_trans h1 h2) le_rfl)
      have : Nat.sqrt n = s := by rw [this]; exact Nat.sqrt_eq s
      exact hne (by rw [this]; omega)

lemma ceilSqrt_pos (n : ℕ) (h : 0 < n) : 0 < ceilSqrt n := by
  have h2 := le_sq_ceilSqrt n
  rcases Nat.eq_zero_or_pos (ceilSqrt n) with h0 | h1
  · rw [h0] at h2; simp at h2; omega
  · exact h1

lemma densitySize_pos (chunk : List ℕ) (h : chunk ≠ []) : 0 < densitySize chunk :=
  ceilSqrt_pos _ (List.length_pos.mpr h)

lemma rawEntry_eq_natCast (chunk : List ℕ) (i j : ℕ) :
    rawEntry chunk i j = (natEntry chunk i j : ℚ) := by
  simp only [rawEntry, natEntry]
  split <;> simp

lemma rawEntry_nonneg (chunk : List ℕ) (i j : ℕ) : 0 ≤ rawEntry chunk i j := by
  rw [rawEntry_eq_natCast]; positivity

lemma rawTrace_eq_natCast (chunk : List ℕ) :
    rawTrace chunk
      = ((∑ k in Finset.range (densitySize chunk), natEntry chunk k k : ℕ) : ℚ) := by
  unfold rawTrace
  push_cast
  exact Finset.sum_congr rfl fun k _ => rawEntry_eq_natCast chunk k k

lemma rawTrace_nonneg (chunk : List ℕ) : 0 ≤ rawTrace chunk := by
  rw [rawTrace_eq_natCast]; positivity

lemma rawTrace_lt_threshold_iff (chunk : List ℕ) :
    rawTrace chunk < traceThreshold ↔ rawTrace chunk = 0 := by
  rw [rawTrace_eq_natCast, traceThreshold]
  set m : ℕ := ∑ k in Finset.range (densitySize chunk), natEntry chunk k k with hm
  constructor
  · intro h
    rcases Nat.eq_zero_or_pos m with h0 | h1
    · rw [h0]; norm_num
    · exfalso
      have h2 : (1 : ℚ) ≤ (m : ℚ) := by exact_mod_cast h1
      linarith
  · intro h
    rw [h]; norm_num

lemma perturbedTrace_eq (chunk : List ℕ) :
    perturbedTrace chunk = rawTrace chunk + (densitySize chunk : ℚ) * eps := by
  unfold perturbedTrace perturbedEntry rawTrace
  rw [Finset.sum_add_distrib]
  congr 1
  rw [Finset.sum_congr rfl fun k hk => if_pos ⟨rfl, Finset.mem_range.mp hk⟩]
  simp [mul_comm]

lemma normTrace_pos (chunk : List ℕ) (h : chunk ≠ []) : 0 < normTrace chunk := by
  unfold normTrace
  split
  · next hlt =>
      rw [perturbedTrace_eq]
      have h1 : 0 ≤ rawTrace chunk := rawTrace_nonneg chunk
      have h2 : (1 : ℚ) ≤ (densitySize chunk : ℚ) := by
        exact_mod_cast densitySize_pos chunk h
      have : (0 : ℚ) < eps := by norm_num [eps]
      nlinarith
  · next hge =>
      push_neg at hge
      have : (0 : ℚ) < traceThreshold := by norm_num [traceThreshold]
      linarith

lemma densityTrace_eq_one (chunk : List ℕ) (h : chunk ≠ []) :
    densityTrace chunk = 1 := by
  have hpos := normTrace_pos chunk h
  unfold densityTrace chunk_to_density
  rw [← Finset.sum_div]
  rw [show (∑ k in Finset.range (densitySize chunk), preNormEntry chunk k k)
        = normTrace chunk from ?_]
  · exact div_self (ne_of_gt hpos)
  · unfold preNormEntry normTrace perturbedTrace rawTrace
    split <;> rfl

lemma getD_replicate_zero (n i : ℕ) : (List.replicate n (0 : ℕ)).getD i 0 = 0 := by
  rcases lt_or_ge i n with h | h
  · simp [List.getD_eq_getElem?_getD, List.getElem?_replicate, h]
  · simp [List.getD_eq_getElem?_getD, List.getElem?_replicate, Nat.not_lt.mpr h]

lemma rawTrace_replicate_zero (n : ℕ) : rawTrace (List.replicate n 0) = 0 := by
  rw [rawTrace_eq_natCast]
  norm_num
  apply Finset.sum_eq_zero
  intro k _
  simp only [natEntry]
  split
  · exact_mod_cast getD_replicate_zero n _
  · rfl

lemma replicate_zero_ne_nil (n : ℕ) (h : 0 < n) : List.replicate n (0 : ℕ) ≠ [] :=
  List.length_pos.mp (by simpa using h)

lemma preNormEntry_nonneg (chunk : List ℕ) (i j : ℕ) : 0 ≤ preNormEntry chunk i j := by
  unfold preNormEntry perturbedEntry
  have h1 := rawEntry_nonneg chunk i j
  have h2 : (0 : ℚ) ≤ eps := by norm_num [eps]
  split
  · split <;> linarith
  · exact h1

lemma size_c16 : densitySize (List.replicate 16 1) = 4 := by
  have hsqrt : Nat.sqrt 16 = 4 := natSqrt_eq 16 4 (by norm_num) (by norm_num)
  simp [densitySize, ceilSqrt, hsqrt]

lemma rawEntry_c16 (i j : ℕ) (hi : i < 4) (hj : j < 4) :
    rawEntry (List.replicate 16 1) i j = 1 := by
  simp only [rawEntry, size_c16]
  rw [if_pos ⟨hi, hj, by simpa using by omega⟩]
  have hlt : i * 4 + j < 16 := by omega
  rw [List.getD_eq_getElem?_getD, List.getElem?_replicate]
  simp [hlt]

lemma rawTrace_c16 : rawTrace (List.replicate 16 1) = 4 := by
  unfold rawTrace
  rw [size_c16]
  rw [Finset.sum_congr rfl fun k hk =>
    rawEntry_c16 k k (Finset.mem_range.mp hk) (Finset.mem_range.mp hk)]
  simp

lemma density_c16 (i j : ℕ) (hi : i < 4) (hj : j < 4) :
    chunk_to_density (List.replicate 16 1) i j = 1 / 4 := by
  have hnotlt : ¬(rawTrace (List.replicate 16 1) < traceThreshold) := by
    rw [rawTrace_c16]; norm_num [traceThreshold]
  unfold chunk_to_density preNormEntry normTrace
  rw [if_neg hnotlt, if_neg hnotlt, rawEntry_c16 i j hi hj, rawTrace_c16]

/-! ## Claim theorems -/

/-- C1: for every non-empty byte chunk, the matrix returned by
`chunk_to_density` has trace equal to 1 (hence within the stated
relative tolerance of `1e-9`). -/
theorem density_trace_one_within_tolerance (chunk : List ℕ) (h : chunk ≠ []) :
    densityTrace chunk = 1 ∧ |densityTrace chunk - 1| ≤ 1 / 1000000000 := by
  refine ⟨densityTrace_eq_one chunk h, ?_⟩
  rw [densityTrace_eq_one chunk h]
  norm_num

/-- Witness for C1 at the one-byte chunk `[1]`. -/
theorem density_trace_one_within_tolerance_witness :
    densityTrace [1] = 1 ∧ |densityTrace [1] - 1| ≤ 1 / 1000000000 :=
  density_trace_one_within_tolerance [1] (by simp)

/-- C2: for the all-zero chunk of any positive length, the initial
trace is below the `1e-10` threshold (so the `ε·I` branch runs), the
divisor is strictly positive (no division by zero), and the returned
matrix still has trace 1. -/
theorem all_zero_chunk_perturbation_safe (n : ℕ) (h : 0 < n) :
    rawTrace (List.replicate n 0) < traceThreshold
    ∧ 0 < normTrace (List.replicate n 0)
    ∧ densityTrace (List.replicate n 0) = 1 := by
  have hne := replicate_zero_ne_nil n h
  refine ⟨?_, normTrace_pos _ hne, densityTrace_eq_one _ hne⟩
  rw [rawTrace_replicate_zero]
  norm_num [traceThreshold]

/-- Witness for C2 at the all-zero chunk of length 5. -/
theorem all_zero_chunk_perturbation_safe_witness :
    rawTrace (List.replicate 5 0) < traceThreshold
    ∧ 0 < normTrace (List.replicate 5 0)
    ∧ densityTrace (List.replicate 5 0) = 1 :=
  all_zero_chunk_perturbation_safe 5 (by norm_num)

/-- C3: for every non-empty chunk, the matrix side is the least `s`
with `len ≤ s·s` (the ceiling of the square root); before
normalization, position `(i div size, i mod size)` holds the `i`-th
byte value unrescaled, and every position no byte is mapped to is 0. -/
theorem matrix_layout_from_bytes (chunk : List ℕ) (h : chunk ≠ []) :
    (chunk.length ≤ densitySize chunk * densitySize chunk
      ∧ ∀ s : ℕ, chunk.length ≤ s * s → densitySize chunk ≤ s)
    ∧ (∀ i (hi : i < chunk.length),
        rawEntry chunk (i / densitySize chunk) (i % densitySize chunk)
          = (chunk.get ⟨i, hi⟩ : ℕ))
    ∧ (∀ r c, r < densitySize chunk → c < densitySize chunk →
        (∀ i, i < chunk.length →
          ¬(r = i / densitySize chunk ∧ c = i % densitySize chunk)) →
        rawEntry chunk r c = 0) := by
  have hs : 0 < densitySize chunk := densitySize_pos chunk h
  set s := densitySize chunk with hsdef
  refine ⟨⟨le_sq_ceilSqrt _, fun t ht => ceilSqrt_le_of_le_sq _ t ht⟩, ?_, ?_⟩
  · intro i hi
    have hlen : chunk.length ≤ s * s := le_sq_ceilSqrt _
    have hdiv : i / s < s := (Nat.div_lt_iff_lt_mul hs).mpr (lt_of_lt_of_le hi hlen)
    have hmod : i % s < s := Nat.mod_lt i hs
    have hidx : i / s * s + i % s = i := by
      rw [mul_comm]; exact Nat.div_add_mod i s
    simp only [rawEntry, ← hsdef, hidx]
    rw [if_pos ⟨hdiv, hmod, hi⟩]
    norm_num
    simp [List.getElem?_eq_getElem hi]
  · intro r c hr hc hnone
    have hout : ¬(r * s + c < chunk.length) := by
      intro hin
      apply hnone (r * s + c) hin
      constructor
      · have hc0 : c / s = 0 := Nat.div_eq_of_lt hc
        rw [mul_comm, Nat.mul_add_div hs, hc0]
        omega
      · rw [mul_comm, Nat.mul_add_mod, Nat.mod_eq_of_lt hc]
    simp only [rawEntry, ← hsdef]
    rw [if_neg]
    intro hcond
    exact hout hcond.2.2

/-- Witness for C3 at the chunk `[7, 9]`: byte index 1 lands at
position `(1 div 2, 1 mod 2) = (0, 1)` with its value 9. -/
theorem matrix_layout_from_bytes_witness :
    rawEntry [7, 9] (1 / densitySize [7, 9]) (1 % densitySize [7, 9]) = 9 := by
  have h := (matrix_layout_from_bytes [7, 9] (by simp)).2.1 1 (by norm_num)
  simpa using h

/-- C4 (code evidence): `main` performs no emptiness check, so an
argument that decodes to zero bytes passes the size cap and reaches
`chunk_to_density`; the resulting matrix is 0×0 and the final division
divides by a zero trace (the `ε·I` perturbation adds nothing when the
side is 0).  No `EncodingError` exists on this path. -/
theorem empty_chunk_reaches_encoder :
    (mainRun ["p", "", "id"] (some []) true).1 = 0
    ∧ Ev.encode ∈ (mainRun ["p", "", "id"] (some []) true).2
    ∧ Ev.encode ∈ (mainRun ["p", "", "id"] (some []) false).2
    ∧ densitySize [] = 0
    ∧ normTrace [] = 0 := by
  have h0 : densitySize [] = 0 := by simp [densitySize, ceilSqrt]
  have hraw : rawTrace [] = 0 := by simp [rawTrace, h0]
  have hnorm : normTrace [] = 0 := by
    rw [normTrace, if_pos (by rw [hraw]; norm_num [traceThreshold])]
    simp [perturbedTrace, h0]
  refine ⟨by simp [mainRun, sizeCap], by simp [mainRun, sizeCap],
    by simp [mainRun, sizeCap], h0, hnorm⟩

/-- C5 counterexample: for the chunk of 16 bytes of value 1, the
normalized entry `(0, 0)` is not `1/16` as the claim states. -/
theorem sixteen_ones_entry_ne_one_sixteenth :
    chunk_to_density (List.replicate 16 1) 0 0 ≠ 1 / 16 := by
  rw [density_c16 0 0 (by norm_num) (by norm_num)]
  norm_num

/-- C5 amended: the chunk of 16 bytes of value 1 yields a 4×4 matrix
whose trace before normalization is 4 (only the 4 diagonal entries
contribute), so after normalization every entry equals `1/4`. -/
theorem sixteen_ones_matrix_quarter_entries :
    densitySize (List.replicate 16 1) = 4
    ∧ rawTrace (List.replicate 16 1) = 4
    ∧ ∀ i, i < 4 → ∀ j, j < 4 →
        chunk_to_density (List.replicate 16 1) i j = 1 / 4 :=
  ⟨size_c16, rawTrace_c16, fun i hi j hj => density_c16 i j hi hj⟩

/-- Witness for the amended C5 at entry `(0, 0)`. -/
theorem sixteen_ones_matrix_quarter_entries_witness :
    chunk_to_density (List.replicate 16 1) 0 0 = 1 / 4 :=
  sixteen_ones_matrix_quarter_entries.2.2 0 (by norm_num) 0 (by norm_num)

/-- C6: the CLI exits 1 when `sys.argv` does not hold exactly two
positional arguments, 3 when base64 decoding fails, 4 when the decoded
chunk exceeds 10,000,000 bytes, 2 when the downstream computation
raises, and 0 on success. -/
theorem exit_code_dispatch (argv : List String) (decoded : Option (List ℕ))
    (ok : Bool) :
    (argv.length ≠ 3 → (mainRun argv decoded ok).1 = 1)
    ∧ (argv.length = 3 → decoded = none → (mainRun argv decoded ok).1 = 3)
    ∧ (∀ chunk, argv.length = 3 → decoded = some chunk →
        sizeCap < chunk.length → (mainRun argv decoded ok).1 = 4)
    ∧ (∀ chunk, argv.length = 3 → decoded = some chunk →
        chunk.length ≤ sizeCap → ok = false → (mainRun argv decoded ok).1 = 2)
    ∧ (∀ chunk, argv.length = 3 → decoded = some chunk →
        chunk.length ≤ sizeCap → ok = true → (mainRun argv decoded ok).1 = 0) := by
  refine ⟨?_, ?_, ?_, ?_, ?_⟩
  · intro h; simp [mainRun, h]
  · intro h3 hd; subst hd; simp [mainRun, h3]
  · intro chunk h3 hd hsz; subst hd; simp [mainRun, h3, hsz]
  · intro chunk h3 hd hsz hok; subst hd; subst hok
    simp [mainRun, h3, Nat.not_lt.mpr hsz]
  · intro chunk h3 hd hsz hok; subst hd; subst hok
    simp [mainRun, h3, Nat.not_lt.mpr hsz]

/-- Witness for C6: one concrete run per exit code. -/
theorem exit_code_dispatch_witness :
    (mainRun ["p"] none true).1 = 1
    ∧ (mainRun ["p", "x", "id"] none true).1 = 3
    ∧ (mainRun ["p", "x", "id"] (some (List.replicate 10000001 0)) true).1 = 4
    ∧ (mainRun ["p", "x", "id"] (some [1]) false).1 = 2
    ∧ (mainRun ["p", "x", "id"] (some [1]) true).1 = 0 :=
  ⟨(exit_code_dispatch ["p"] none true).1 (by norm_num),
   (exit_code_dispatch ["p", "x", "id"] none true).2.1 (by norm_num) rfl,
   (exit_code_dispatch ["p", "x", "id"] (some (List.replicate 10000001 0)) true).2.2.1
     (List.replicate 10000001 0) (by norm_num) rfl (by norm_num [sizeCap]),
   (exit_code_dispatch ["p", "x", "id"] (some [1]) false).2.2.2.1 [1] (by norm_num)
     rfl (by norm_num [sizeCap]) rfl,
   (exit_code_dispatch ["p", "x", "id"] (some [1]) true).2.2.2.2 [1] (by norm_num)
     rfl (by norm_num [sizeCap]) rfl⟩

/-- C7: a decoded chunk over the 10,000,000-byte cap makes `main` exit
with code 4 before any matrix work: no pipeline stage — the encoder,
the entropy estimation, or the proof generation — is ever started. -/
theorem oversize_rejected_before_matrix_work (argv : List String)
    (chunk : List ℕ) (ok : Bool) (h3 : argv.length = 3)
    (h : sizeCap < chunk.length) :
    (mainRun argv (some chunk) ok).1 = 4
    ∧ (mainRun argv (some chunk) ok).2 = []
    ∧ Ev.encode ∉ (mainRun argv (some chunk) ok).2
    ∧ Ev.entropy ∉ (mainRun argv (some chunk) ok).2
    ∧ Ev.prove ∉ (mainRun argv (some chunk) ok).2 := by
  have hrun : mainRun argv (some chunk) ok = (4, []) := by
    simp [mainRun, h3, h]
  rw [hrun]
  simp

/-- Witness for C7 at a 10,000,001-byte chunk. -/
theorem oversize_rejected_before_matrix_work_witness :
    (mainRun ["p", "x", "id"] (some (List.replicate 10000001 0)) true).1 = 4
    ∧ Ev.encode ∉ (mainRun ["p", "x", "id"] (some (List.replicate 10000001 0)) true).2 :=
  ⟨(oversize_rejected_before_matrix_work ["p", "x", "id"] (List.replicate 10000001 0)
      true (by norm_num) (by norm_num [sizeCap])).1,
   (oversize_rejected_before_matrix_work ["p", "x", "id"] (List.replicate 10000001 0)
      true (by norm_num) (by norm_num [sizeCap])).2.2.1⟩

/-- C8: every entry of the matrix returned by `chunk_to_density` is
non-negative, for every non-empty input chunk, on both the direct and
the perturbation path. -/
theorem density_entries_nonneg (chunk : List ℕ) (h : chunk ≠ []) (i j : ℕ) :
    0 ≤ chunk_to_density chunk i j :=
  div_nonneg (preNormEntry_nonneg chunk i j) (normTrace_pos chunk h).le

/-- Witness for C8 at the chunk `[3]`, entry `(0, 0)`. -/
theorem density_entries_nonneg_witness : 0 ≤ chunk_to_density [3] 0 0 :=
  density_entries_nonneg [3] (by simp) 0 0

/-- C9: the `ε·I` perturbation runs exactly when every chunk byte lying
on the matrix diagonal (index `k·(size+1)` below the length) is zero;
and the returned matrix has trace 1 in either case, so a non-zero chunk
with all-zero diagonal also takes the perturbation path and still
normalizes to trace 1. -/
theorem perturbation_iff_zero_diagonal (chunk : List ℕ) (h : chunk ≠ []) :
    (rawTrace chunk < traceThreshold ↔
      ∀ k, k * (densitySize chunk + 1) < chunk.length →
        chunk.getD (k * (densitySize chunk + 1)) 0 = 0)
    ∧ densityTrace chunk = 1 := by
  refine ⟨?_, densityTrace_eq_one chunk h⟩
  have hs : 0 < densitySize chunk := densitySize_pos chunk h
  have hlen : chunk.length ≤ densitySize chunk * densitySize chunk := le_sq_ceilSqrt _
  set s := densitySize chunk with hsdef
  rw [rawTrace_lt_threshold_iff, rawTrace_eq_natCast]
  rw [show ((((∑ k in Finset.range s, natEntry chunk k k : ℕ)) : ℚ) = 0)
        ↔ (∑ k in Finset.range s, natEntry chunk k k = 0) from by exact_mod_cast Iff.rfl]
  rw [Finset.sum_eq_zero_iff]
  constructor
  · intro hall k hk
    have hks : k < s := by nlinarith
    have := hall k (Finset.mem_range.mpr hks)
    have hx : k * (s + 1) = k * s + k := by ring
    simp only [natEntry, ← hsdef] at this
    rw [if_pos ⟨hks, hks, by omega⟩] at this
    rw [show k * s + k = k * (s + 1) from by ring] at this
    exact this
  · intro hdiag k hk
    simp only [natEntry, ← hsdef]
    split
    · next hcond =>
        have hx : k * (s + 1) = k * s + k := by ring
        rw [show k * s + k = k * (s + 1) from by ring]
        exact hdiag k (by omega)
    · rfl

/-- Witness for C9 at `[0, 5]`: a non-zero chunk whose single in-range
diagonal byte (index 0) is zero takes the perturbation path and still
yields a trace-1 matrix. -/
theorem perturbation_iff_zero_diagonal_witness :
    rawTrace [0, 5] < traceThreshold ∧ densityTrace [0, 5] = 1 := by
  have h := perturbation_iff_zero_diagonal [0, 5] (by simp)
  refine ⟨h.1.mpr ?_, h.2⟩
  intro k hk
  have hs2 : densitySize [0, 5] = 2 := by
    have hsqrt : Nat.sqrt 2 = 1 := natSqrt_eq 2 1 (by norm_num) (by norm_num)
    simp [densitySize, ceilSqrt, hsqrt]
  rw [hs2] at hk ⊢
  have hk2 : k * 3 < 2 := by simpa using hk
  have : k = 0 := by omega
  subst this
  rfl

/-- C10: `chunk_to_density` is deterministic — two chunks of equal
length and elementwise equal byte values yield entrywise identical
matrices; the encoder consults no randomness or external state. -/
theorem chunk_to_density_deterministic (c1 c2 : List ℕ)
    (hlen : c1.length = c2.length)
    (hval : ∀ i, i < c1.length → c1.getD i 0 = c2.getD i 0) :
    ∀ i j, chunk_to_density c1 i j = chunk_to_density c2 i j := by
  have hEq : c1 = c2 := by
    apply List.ext_getElem hlen
    intro i h1 h2
    have hv := hval i h1
    rwa [List.getD_eq_getElem?_getD, List.getD_eq_getElem?_getD,
      List.getElem?_eq_getElem h1, List.getElem?_eq_getElem h2] at hv
  rw [hEq]
  intro i j
  rfl

/-- Witness for C10 at the chunk `[2, 3]`, entry `(0, 0)`. -/
theorem chunk_to_density_deterministic_witness :
    chunk_to_density [2, 3] 0 0 = chunk_to_density [2, 3] 0 0 :=
  chunk_to_density_deterministic [2, 3] [2, 3] rfl (fun _ _ => rfl) 0 0

end ZenithChunk
